import Mathlib

/-!
Verification of the Indaleko metadata pipeline against its specification.

The development shallowly embeds the pipeline pieces the claims refer to:
* the iCloud ingester (`normalize_index_data`, `ingest` from
  IndalekoICloudIngestor.py), modelling records as structures over the
  fields the code reads, exceptions as `Option`/`none`, and the Python
  `dict` used for the path index as an association list with
  last-binding-wins lookup;
* the Windows local indexer (`windows_to_posix`, `posix_to_windows`,
  `convert_windows_path_to_guid_uri`, `build_stat_dict` from
  IndalekoWindowsLocalIndexer.py), with Python strings embedded as
  `List Char` and `str.replace` embedded as a leftmost, non-overlapping
  replacement function.

Classes the ingester imports from modules absent from the source tree
(IndalekoObject, UnixFileAttributes, the relationship classes, the
base-class run counters) are modelled from the specification; each such
definition carries a doc comment starting with "Modelled from the spec:".
-/

/- ===================================================================
   Part 1.  iCloud ingester data model (IndalekoICloudIngestor.py)
   =================================================================== -/

/-- Raw provider record handed to `normalize_index_data`.  Fields are the
dictionary keys the ingester reads; `Option` marks keys that may be absent
(a `none` read through Python subscripting raises `KeyError`).
`FolderMetadata`/`FileMetadata` record key *presence*, which is all the
code tests. -/
structure Rec where
  ObjectIdentifier : Option String
  path_display : Option String
  FolderMetadata : Bool
  FileMetadata : Bool
  client_modified : Option String
  server_modified : Option String
  size : Option Nat
  user_id : Option String
deriving DecidableEq

/-- One labelled timestamp as built in the `FileMetadata` branch of
`normalize_index_data`. -/
structure TimestampRec where
  Label : String
  Value : String
  Description : String
deriving DecidableEq

/-- Modelled from the spec: the timestamp label constants of the missing
IndalekoObject module ("each labeled by a semantic UUID"); the concrete
values are immaterial to the claims, only their distinctness is used. -/
def MODIFICATION_TIMESTAMP : String := "433f7b10-8d04-4575-b64a-f83a74f13b33"

/-- Modelled from the spec: change-timestamp label constant of the missing
IndalekoObject module. -/
def CHANGE_TIMESTAMP : String := "fc1f5f44-05f4-4d4d-94f5-b73fe51dd6c9"

/-- Modelled from the spec: Unix file-attribute bit for directories
(`UnixFileAttributes.FILE_ATTRIBUTES['S_IFDIR']`, the module is not in the
source tree); the stat constant S_IFDIR. -/
def S_IFDIR_MASK : Nat := 16384

/-- Modelled from the spec: Unix file-attribute bit for regular files
(`UnixFileAttributes.FILE_ATTRIBUTES['S_IFREG']`). -/
def S_IFREG_MASK : Nat := 32768

/-- Modelled from the spec: `UnixFileAttributes.map_file_attributes` maps an
attribute bit mask to the list of attribute names it contains; the
ingester only ever tests membership of 'S_IFDIR'. -/
def map_file_attributes (mask : Nat) : List String :=
  (if mask = S_IFDIR_MASK then ["S_IFDIR"] else []) ++
  (if mask = S_IFREG_MASK then ["S_IFREG"] else [])

/-- Normalized object as assembled by `normalize_index_data`.  The fields
are the kwargs the source passes to the IndalekoObject constructor and
later reads back through `obj.args`; `WindowsFileAttributes` is modelled
(the source comments its kwarg out, and the edge loop still reads it, so
the missing IndalekoObject class is modelled per the spec as defaulting it
to empty).  `RawData`/`source` kwargs are opaque encodings of `Attributes`
and a constant, and are not modelled separately. -/
structure IndalekoObject where
  Path : String
  ObjectIdentifier : String
  Timestamps : List TimestampRec
  Size : Nat
  UnixFileAttributes : List String
  WindowsFileAttributes : List String
  Attributes : Rec
deriving DecidableEq

/-- Hexadecimal digit test, for UUID validation. -/
def isHexDigit (c : Char) : Bool :=
  c.isDigit || ('a' ≤ c && c ≤ 'f') || ('A' ≤ c && c ≤ 'F')

/-- Modelled from the spec: object identifiers "must already be a valid
UUID" (the validating IndalekoObject module is not in the source tree);
canonical hyphenated 8-4-4-4-12 form. -/
def isValidUUID (s : String) : Bool :=
  let l := s.toList
  l.length = 36 &&
  (List.range 36).all (fun i =>
    if i = 8 || i = 13 || i = 18 || i = 23 then l.getD i ' ' = '-'
    else isHexDigit (l.getD i ' '))

/-- Modelled from the spec: the constructor of the missing IndalekoObject
module assembles the object and rejects a malformed identifier (failing
that record). -/
def IndalekoObject.make (oid path : String) (ts : List TimestampRec)
    (size : Nat) (ua : List String) (attrs : Rec) : Option IndalekoObject :=
  if isValidUUID oid then
    some ⟨path, oid, ts, size, ua, [], attrs⟩
  else
    none

/-- Embedding of `IndalekoICloudIngester.normalize_index_data`: `none`
stands for a raised exception (ValueError for a missing identifier,
KeyError for a missing required key, UnboundLocalError when neither
metadata marker is present).  `user_id` plays the role of
`self.user_id`. -/
def normalize_index_data (user_id : String) (data : Rec) :
    Option IndalekoObject := do
  let oid ← data.ObjectIdentifier
  let data' := { data with user_id := some (data.user_id.getD user_id) }
  -- timestamps = [] and size = 0 are the defaults; the FolderMetadata
  -- branch selects the directory bits, the FileMetadata branch (checked
  -- second, hence winning when both are present) selects regular-file
  -- bits and reads the required file keys.
  let dirBits : Option Nat :=
    if data.FolderMetadata then some S_IFDIR_MASK else none
  let state ←
    if data.FileMetadata then do
      let cm ← data.client_modified
      let sm ← data.server_modified
      let sz ← data.size
      pure (S_IFREG_MASK,
        [(⟨MODIFICATION_TIMESTAMP, cm, "Client Modified"⟩ : TimestampRec),
         (⟨CHANGE_TIMESTAMP, sm, "Server Modified"⟩ : TimestampRec)], sz)
    else do
      -- with no FileMetadata the attribute bits must have come from the
      -- FolderMetadata branch, else the local is unbound and Python raises
      let ua ← dirBits
      pure (ua, ([] : List TimestampRec), 0)
  let path ← data.path_display
  IndalekoObject.make oid path state.2.1 state.2.2 (map_file_attributes state.1) data'

/-- Sequential normalization of the run's records: Python raises out of
`ingest` at the first failing record, so the whole run yields `none` as
soon as any record fails. -/
def normalizeAll (user_id : String) : List Rec → Option (List (Rec × IndalekoObject))
  | [] => some []
  | r :: rs => do
    let o ← normalize_index_data user_id r
    let rest ← normalizeAll user_id rs
    pure ((r, o) :: rest)

/-- Classification loop of `ingest` (lines 173-186): an object is a
directory when 'S_IFDIR' occurs in its Unix attributes or
'FILE_ATTRIBUTE_DIRECTORY' in its Windows attributes; a directory whose
raw record lacks `path_display` is skipped with a warning (dead in
practice, since normalization already required the key).  Returns
(dir_data, file_data) in input order. -/
def classify : List (Rec × IndalekoObject) →
    List IndalekoObject × List IndalekoObject
  | [] => ([], [])
  | (r, o) :: rest =>
    let (ds, fs) := classify rest
    if o.UnixFileAttributes.contains "S_IFDIR" ||
       o.WindowsFileAttributes.contains "FILE_ATTRIBUTE_DIRECTORY" then
      match r.path_display with
      | none => (ds, fs)
      | some _ => (o :: ds, fs)
    else
      (ds, o :: fs)

/-- Lookup in an association list built by successive Python `dict`
assignments: the binding written last wins. -/
def alookup (m : List (String × String)) (k : String) : Option String :=
  match m with
  | [] => none
  | (k', v) :: rest =>
    match alookup rest k with
    | some v' => some v'
    | none => if k = k' then some v else none

/-- The `dirmap` dictionary of `ingest` (lines 187-189): each directory
object's own `Path` mapped to its `ObjectIdentifier`, in insertion
order. -/
def dirmapOf (dir_data : List IndalekoObject) : List (String × String) :=
  dir_data.map (fun o => (o.Path, o.ObjectIdentifier))

/-- Modelled from the spec: relationship identifier of the missing
IndalekoRelationshipContains class; the value only needs to be a fixed
tag. -/
def DIRECTORY_CONTAINS_RELATIONSHIP : String :=
  "cde81297-a000-4000-8000-000000000001"

/-- Modelled from the spec: relationship identifier of the missing
IndalekoRelationshipContainedBy class. -/
def CONTAINED_BY_DIRECTORY_RELATIONSHIP : String :=
  "cde81297-a000-4000-8000-000000000002"

/-- One emitted relationship record: the relationship tag and the two
`ObjectIdentifier` endpoints exactly as the source passes them
(`object1` then `object2`). -/
structure Edge where
  relationship : String
  object1 : String
  object2 : String
deriving DecidableEq

/-- Concatenated map over a list (the edges contributed by successive
loop iterations). -/
def listJoinMap (f : α → List β) : List α → List β
  | [] => []
  | a :: as => f a ++ listJoinMap f as

/-- Edge-emission body of the `ingest` loop (lines 195-233): the loop
variable's own `Path` is looked up in `dirmap` (the source calls this
value `parent`); on a hit a Contains edge (object1 = the item, object2 =
the dirmap hit) and a ContainedBy edge (object1 = the dirmap hit,
object2 = the item) are appended, on a miss the item is skipped with a
warning. -/
def edgesFor (dirmap : List (String × String)) (item : IndalekoObject) :
    List Edge :=
  match alookup dirmap item.Path with
  | some parent_id =>
    [⟨DIRECTORY_CONTAINS_RELATIONSHIP, item.ObjectIdentifier, parent_id⟩,
     ⟨CONTAINED_BY_DIRECTORY_RELATIONSHIP, parent_id, item.ObjectIdentifier⟩]
  | none => []

/-- Result of one ingest run: the objects written to the object batch,
the edges written to the relationship batch, and the run counters.
Modelled from the spec: the counter fields live on the missing
IndalekoIngester base class; `dir_count`/`file_count` are incremented once
per classified object and `edge_count` once per appended edge, so their
final values equal the respective lengths; no statement of `ingest`
increments `orphan_count`, so it ends at 0. -/
structure Run where
  objects : List IndalekoObject
  edges : List Edge
  dir_count : Nat
  file_count : Nat
  edge_count : Nat
  orphan_count : Nat
deriving DecidableEq

/-- Post-normalization body of `IndalekoICloudIngester.ingest` (lines
173-255): classify into directories and files, build `dirmap`, emit
edges, and write `dir_data + file_data` as the object batch and the
edges as the relationship batch, with the final counter values. -/
def runOf (pairs : List (Rec × IndalekoObject)) : Run :=
  let dir_data := (classify pairs).1
  let file_data := (classify pairs).2
  let dirmap := dirmapOf dir_data
  let dir_edges := listJoinMap (edgesFor dirmap) (dir_data ++ file_data)
  { objects := dir_data ++ file_data
    edges := dir_edges
    dir_count := dir_data.length
    file_count := file_data.length
    edge_count := dir_edges.length
    orphan_count := 0 }

/-- Embedding of `IndalekoICloudIngester.ingest`, assembled from the
stages above: any normalization failure aborts the whole run. -/
def ingest (user_id : String) (recs : List Rec) : Option Run :=
  (normalizeAll user_id recs).map runOf

/-- The PathIndex (dirmap) a run over `recs` builds, recomputed from the
same pipeline stages. -/
def pathIndex (user_id : String) (recs : List Rec) : List (String × String) :=
  ((normalizeAll user_id recs).map (fun pairs => dirmapOf (classify pairs).1)).getD []

/- Concrete scenario inputs (spec section 8). -/

/-- Directory record for the walk root, path `/root`. -/
def rootRec : Rec :=
  { ObjectIdentifier := some "11111111-1111-4111-8111-111111111111"
    path_display := some "/root"
    FolderMetadata := true
    FileMetadata := false
    client_modified := none
    server_modified := none
    size := none
    user_id := none }

/-- Directory record for `/root/sub`. -/
def subRec : Rec :=
  { ObjectIdentifier := some "22222222-2222-4222-8222-222222222222"
    path_display := some "/root/sub"
    FolderMetadata := true
    FileMetadata := false
    client_modified := none
    server_modified := none
    size := none
    user_id := none }

/-- File record for `/root/sub/b.txt`. -/
def bRec : Rec :=
  { ObjectIdentifier := some "33333333-3333-4333-8333-333333333333"
    path_display := some "/root/sub/b.txt"
    FolderMetadata := false
    FileMetadata := true
    client_modified := some "2024-01-01T00:00:00Z"
    server_modified := some "2024-01-02T00:00:00Z"
    size := some 3
    user_id := none }

/-- Scenario A of the spec: the full tree root, root/sub, root/sub/b.txt. -/
def scenarioA : List Rec := [rootRec, subRec, bRec]

/-- Scenario B of the spec: the walk starts at root/sub, so root is never
captured. -/
def scenarioB : List Rec := [subRec, bRec]

/-- The run scenario A produces (total function image of `ingest`; the
accompanying theorems establish `ingest "u" scenarioA = some scenarioARun`). -/
def scenarioARun : Run :=
  (ingest "u" scenarioA).getD ⟨[], [], 0, 0, 0, 0⟩

/-- The run scenario B produces. -/
def scenarioBRun : Run :=
  (ingest "u" scenarioB).getD ⟨[], [], 0, 0, 0, 0⟩

/- ===================================================================
   Part 2.  Windows local indexer: volume URIs (IndalekoWindowsLocalIndexer.py)
   =================================================================== -/

/-- Path-separator test of ntpath (backslash or slash). -/
def isSep (c : Char) : Bool := c = '\\' || c = '/'

/-- Splits a character list at its first separator. -/
def spanNoSep : List Char → List Char × List Char
  | [] => ([], [])
  | c :: r =>
    if isSep c then ([], c :: r)
    else
      let (x, y) := spanNoSep r
      (c :: x, y)

/-- Embedding of `os.path.splitdrive` (ntpath): a leading `X:` drive, or
a UNC `\\server\share` drive spanning the first two components, is split
off. -/
def splitdrive (p : List Char) : List Char × List Char :=
  match p with
  | s1 :: s2 :: rest =>
    if isSep s1 && isSep s2 then
      let (comp1, r1) := spanNoSep rest
      match r1 with
      | [] => ([], p)
      | sep3 :: r2 =>
        match r2 with
        | [] => (p, [])
        | c :: _ =>
          if isSep c then ([], p)
          else
            let (comp2, r3) := spanNoSep r2
            (s1 :: s2 :: comp1 ++ sep3 :: comp2, r3)
    else if s2 = ':' then ([s1, ':'], rest)
    else ([], p)
  | _ => ([], p)

/-- Whether a list ends in a separator. -/
def lastIsSep (l : List Char) : Bool :=
  match l.getLast? with
  | some c => isSep c
  | none => false

/-- Embedding of `os.path.join` (ntpath) for a second component carrying
no drive of its own — the only shape `build_stat_dict` passes: an
absolute second component replaces the path but keeps the first
component's drive; otherwise the parts are joined with a backslash
unless one is already present, and a separator is inserted after a UNC
drive. -/
def ntjoin (a b : List Char) : List Char :=
  let (rd, rp) := splitdrive a
  if (b.head?.map isSep).getD false then rd ++ b
  else
    let rp2 := if rp.isEmpty || lastIsSep rp then rp else rp ++ ['\\']
    let res := rp2 ++ b
    if !res.isEmpty && !(res.head?.map isSep).getD false &&
       !rd.isEmpty && rd.getLast? ≠ some ':' then
      rd ++ '\\' :: res
    else rd ++ res

/-- Embedding of `IndalekoWindowsLocalIndexer.convert_windows_path_to_guid_uri`
(lines 77-86): `resolve` is `self.machine_config.map_drive_letter_to_volume_guid`;
`none` is the IndexError raised by `splitdrive(path)[0][0]` on a driveless
path.  The initial default assignment to `uri` in the source is dead
(both branches overwrite it). -/
def convert_windows_path_to_guid_uri (resolve : Char → Option (List Char))
    (path : List Char) : Option (List Char) :=
  match (splitdrive path).1 with
  | [] => none
  | d :: _ =>
    let drive := d.toUpper
    match resolve drive with
    | some mapped_guid =>
      ("\\\\?\\Volume\x7b".toList) ++ mapped_guid ++ ("\x7d\\".toList)
    | none => ("\\\\?\\".toList) ++ [drive, ':']

/-- Outcome of one `build_stat_dict` call: the entry skipped because
`os.stat` raised (caught, returns None), an uncaught IndexError from
`splitdrive(...)[0][0]`, an uncaught AssertionError from the volume-GUID
assertion, or the returned `(stat_dict-URI, last_uri, last_drive)`
triple (the other stat fields are opaque copies of the stat data and are
not modelled). -/
inductive StatOutcome where
  | skipped
  | indexError
  | assertError
  | ok (uri last_uri : List Char) (last_drive : Option Char)
deriving DecidableEq

/-- Embedding of `IndalekoWindowsLocalIndexer.build_stat_dict` (lines
89-111): `statOk` abstracts whether `os.stat` succeeds; the `last_uri`
parameter is dead in the source (reassigned to the file path before any
use).  When the drive differs from `last_drive`, the volume URI is
recomputed and the source *asserts* it begins with the Volume-GUID
format before building the entry URI. -/
def build_stat_dict (resolve : Char → Option (List Char)) (statOk : Bool)
    (name root : List Char) (last_drive : Option Char) : StatOutcome :=
  let file_path := ntjoin root name
  let last_uri := file_path
  if !statOk then .skipped
  else
    match (splitdrive root).1 with
    | [] => .indexError
    | d :: _ =>
      let drv := d.toUpper
      if last_drive ≠ some drv then
        match convert_windows_path_to_guid_uri resolve root with
        | none => .indexError
        | some uri =>
          if ("\\\\?\\Volume\x7b".toList).isPrefixOf uri then
            .ok (ntjoin (ntjoin uri (splitdrive root).2) name) uri (some drv)
          else .assertError
      else
        .ok (ntjoin (ntjoin last_uri (splitdrive root).2) name) last_uri last_drive

/- ===================================================================
   Part 3.  Windows local indexer: reserved-character substitution
   =================================================================== -/

/-- Fuel-indexed core of Python `str.replace`: leftmost, non-overlapping
replacement of `pat` by `rep`.  One unit of fuel is spent per examined
position, and every step consumes at least one character, so fuel equal
to the string length computes the replacement exactly. -/
def replaceAllF (pat rep : List Char) : Nat → List Char → List Char
  | 0, s => s
  | Nat.succ n, s =>
    match s with
    | [] => []
    | c :: rest =>
      if pat.isPrefixOf (c :: rest) && !pat.isEmpty then
        rep ++ replaceAllF pat rep n (rest.drop (pat.length - 1))
      else
        c :: replaceAllF pat rep n rest

/-- Python `s.replace(pat, rep)` for a non-empty `pat` (every use below
has a non-empty literal pattern). -/
def replaceAll (pat rep s : List Char) : List Char :=
  replaceAllF pat rep s.length s

/-- The reserved Win32 characters, in the iteration order of the
`win32_to_posix` dictionary of `windows_to_posix`. -/
def resChars : List Char := ['<', '>', ':', '"', '/', '\\', '|', '?', '*']

/-- The substitution tokens, positionally matching `resChars`. -/
def resToks : List (List Char) :=
  ["_lt_".toList, "_gt_".toList, "_cln_".toList, "_qt_".toList,
   "_sl_".toList, "_bsl_".toList, "_bar_".toList, "_qm_".toList,
   "_ast_".toList]

/-- Embedding of `IndalekoWindowsLocalIndexer.windows_to_posix` (lines
37-49): the nine reserved characters are replaced by their tokens, one
`str.replace` pass per character, in dictionary order. -/
def windows_to_posix (filename : List Char) : List Char :=
  (List.zip resChars resToks).foldl (fun acc p => replaceAll [p.1] p.2 acc)
    filename

/-- Embedding of `IndalekoWindowsLocalIndexer.posix_to_windows` (lines
51-63): the nine tokens are replaced back by their characters, one
`str.replace` pass per token, in the same order. -/
def posix_to_windows (filename : List Char) : List Char :=
  (List.zip resToks resChars).foldl (fun acc p => replaceAll p.1 [p.2] acc)
    filename

/-- Substring occurrence test (used to state "contains none of the
substitution tokens verbatim"). -/
def hasSubstr (t : List Char) : List Char → Bool
  | [] => t.isEmpty
  | c :: rest => t.isPrefixOf (c :: rest) || hasSubstr t rest

/-- The token interiors: each token with its surrounding underscores
stripped (lt, gt, cln, qt, sl, bsl, bar, qm, ast). -/
def tokInteriors : List (List Char) := resToks.map (fun t => (t.drop 1).dropLast)

/-- A string spans a token if somewhere a reserved character is followed
by a token interior followed by another reserved character: after
encoding, the trailing underscore of the first character's token, the
interior letters, and the leading underscore of the second character's
token spell a full token at a position the decoder can see first. -/
def spansTok : List Char → Bool
  | [] => false
  | c :: rest =>
    (resChars.contains c &&
      tokInteriors.any (fun w =>
        w.isPrefixOf rest &&
        (match rest.drop w.length with
         | r2 :: _ => resChars.contains r2
         | [] => false))) ||
    spansTok rest

/-- Index of the first occurrence of a character in a list, if any. -/
def idxOf? (c : Char) : List Char → Option Nat
  | [] => none
  | x :: xs => if x = c then some 0 else (idxOf? c xs).map (· + 1)

/-- Index of a character in the reserved set, if any. -/
def resIdx (c : Char) : Option Nat := idxOf? c resChars

/-- Character-wise substitution: what one `str.replace` pass with a
single-character pattern does to each character. -/
def subst1 (a : Char) (r : List Char) (c : Char) : List Char :=
  if c = a then r else [c]

/-- Two lists differ at some position below both lengths. -/
def diffWithin : List Char → List Char → Bool
  | a :: as, b :: bs => a != b || diffWithin as bs
  | _, _ => false

/-- Encoding state after the first `k` passes of `windows_to_posix`:
reserved characters of index below `k` have become their tokens. -/
def pEnc (k : Nat) (c : Char) : List Char :=
  match resIdx c with
  | some j => if j < k then resToks.getD j [] else [c]
  | none => [c]

/-- Decoding state after the first `k` passes of `posix_to_windows`
applied to a fully encoded string: tokens of index below `k` are back to
their characters, the rest are still tokens. -/
def dEnc (k : Nat) (c : Char) : List Char :=
  match resIdx c with
  | some j => if j < k then [c] else resToks.getD j []
  | none => [c]

/-- ObjectIdentifier of the `/root` directory record. -/
def rootId : String := "11111111-1111-4111-8111-111111111111"

/-- ObjectIdentifier of the `/root/sub` directory record. -/
def subId : String := "22222222-2222-4222-8222-222222222222"

/-- ObjectIdentifier of the `/root/sub/b.txt` file record. -/
def bId : String := "33333333-3333-4333-8333-333333333333"

/-- The first edge scenario A emits (used as a concrete sample edge). -/
def sampleEdge : Edge := ⟨DIRECTORY_CONTAINS_RELATIONSHIP, rootId, rootId⟩

/-- A record with no ObjectIdentifier key at all. -/
def noIdRec : Rec := { rootRec with ObjectIdentifier := none }

/-- A record whose ObjectIdentifier is not a valid UUID. -/
def badIdRec : Rec := { rootRec with ObjectIdentifier := some "not-a-uuid" }

/-- A file record that supplies no size and no timestamp fields. -/
def fileNoSizeRec : Rec :=
  { bRec with size := none, client_modified := none, server_modified := none }

/- ===================================================================
   Theorems.  First, helper lemmas about the ingest pipeline.
   =================================================================== -/

/-- A successful association-list lookup returns a binding of the list. -/
theorem alookup_mem {m : List (String × String)} {k v : String}
    (h : alookup m k = some v) : (k, v) ∈ m := by
  induction m with
  | nil => simp [alookup] at h
  | cons p rest ih =>
    obtain ⟨k', v'⟩ := p
    simp only [alookup] at h
    cases hrest : alookup rest k with
    | some w =>
      rw [hrest] at h
      exact List.mem_cons_of_mem _ (ih (hrest.trans h))
    | none =>
      rw [hrest] at h
      by_cases hk : k = k'
      · rw [if_pos hk] at h
        rw [hk, Option.some_inj.mp h]
        exact List.mem_cons_self _ _
      · rw [if_neg hk] at h
        exact absurd h (by simp)

/-- Membership in a concatenated map comes from some element of the
list. -/
theorem mem_listJoinMap {f : α → List β} {l : List α} {b : β}
    (h : b ∈ listJoinMap f l) : ∃ a ∈ l, b ∈ f a := by
  induction l with
  | nil => simp [listJoinMap] at h
  | cons a rest ih =>
    simp only [listJoinMap, List.mem_append] at h
    rcases h with h | h
    · exact ⟨a, List.mem_cons_self _ _, h⟩
    · obtain ⟨a', ha', hb⟩ := ih h
      exact ⟨a', List.mem_cons_of_mem _ ha', hb⟩

/-- Each loop iteration of the edge loop contributes two edges when the
item's own path hits the dirmap and zero otherwise, so the total edge
count is twice the number of hits. -/
theorem listJoinMap_edgesFor_length (dm : List (String × String))
    (l : List IndalekoObject) :
    (listJoinMap (edgesFor dm) l).length =
      2 * (l.filter (fun o => (alookup dm o.Path).isSome)).length := by
  induction l with
  | nil => simp [listJoinMap]
  | cons a rest ih =>
    simp only [listJoinMap, List.length_append, ih, List.filter_cons]
    cases h : alookup dm a.Path with
    | some pid => simp [edgesFor, h]; omega
    | none => simp [edgesFor, h]

/-- One failing record makes the whole normalization pass fail. -/
theorem normalizeAll_none_of_mem {u : String} {recs : List Rec} {r : Rec}
    (hmem : r ∈ recs) (hfail : normalize_index_data u r = none) :
    normalizeAll u recs = none := by
  induction recs with
  | nil => simp at hmem
  | cons a rest ih =>
    rcases List.mem_cons.mp hmem with h | h
    · subst h
      simp [normalizeAll, hfail]
    · simp only [normalizeAll]
      cases ha : normalize_index_data u a with
      | none => rfl
      | some o => simp [ih h]

/-- Projection: the objects a run writes are the classified directories
followed by the classified files. -/
theorem runOf_objects (pairs : List (Rec × IndalekoObject)) :
    (runOf pairs).objects = (classify pairs).1 ++ (classify pairs).2 := rfl

/-- Projection: the edges a run writes are the loop contributions over
directories then files, against the dirmap of the directories. -/
theorem runOf_edges (pairs : List (Rec × IndalekoObject)) :
    (runOf pairs).edges =
      listJoinMap (edgesFor (dirmapOf (classify pairs).1))
        ((classify pairs).1 ++ (classify pairs).2) := rfl

/-- C9: every ContainmentEdge a successful ingest run emits has both of
its endpoints among the ObjectIdentifiers of the StorageObjects emitted
by that same run — one endpoint is the loop item itself and the other is
a directory object found through the PathIndex — so no run emits a
dangling edge. -/
theorem ingest_no_dangling_edges (u : String) (recs : List Rec) (run : Run)
    (h : ingest u recs = some run) :
    ∀ e ∈ run.edges,
      e.object1 ∈ run.objects.map IndalekoObject.ObjectIdentifier ∧
      e.object2 ∈ run.objects.map IndalekoObject.ObjectIdentifier := by
  intro e he
  unfold ingest at h
  cases hX : normalizeAll u recs with
  | none => rw [hX] at h; exact absurd h (by simp)
  | some pairs =>
    rw [hX] at h
    have h' : some (runOf pairs) = some run := h
    obtain rfl := Option.some.inj h'
    rw [runOf_edges] at he
    rw [runOf_objects]
    obtain ⟨it, hit, he2⟩ := mem_listJoinMap he
    unfold edgesFor at he2
    cases halk : alookup (dirmapOf (classify pairs).1) it.Path with
    | none => rw [halk] at he2; simp at he2
    | some pid =>
      rw [halk] at he2
      have hitm : it.ObjectIdentifier ∈
          ((classify pairs).1 ++ (classify pairs).2).map
            IndalekoObject.ObjectIdentifier :=
        List.mem_map_of_mem _ hit
      have hpidm : pid ∈
          ((classify pairs).1 ++ (classify pairs).2).map
            IndalekoObject.ObjectIdentifier := by
        have hmem := alookup_mem halk
        unfold dirmapOf at hmem
        obtain ⟨d, hd, heq⟩ := List.mem_map.mp hmem
        have hsnd : d.ObjectIdentifier = pid := congrArg Prod.snd heq
        rw [← hsnd]
        exact List.mem_map_of_mem _ (List.mem_append_left _ hd)
      simp only [List.mem_cons, List.not_mem_nil, or_false] at he2
      rcases he2 with rfl | rfl
      · exact ⟨hitm, hpidm⟩
      · exact ⟨hpidm, hitm⟩

/-- Witness for C9 at scenario A with the first emitted edge. -/
theorem ingest_no_dangling_edges_witness :
    (ingest "u" scenarioA = some scenarioARun ∧
     sampleEdge ∈ scenarioARun.edges) ∧
    (sampleEdge.object1 ∈ scenarioARun.objects.map
       IndalekoObject.ObjectIdentifier ∧
     sampleEdge.object2 ∈ scenarioARun.objects.map
       IndalekoObject.ObjectIdentifier) :=
  ⟨⟨rfl, by decide⟩,
   ingest_no_dangling_edges "u" scenarioA scenarioARun rfl sampleEdge
     (by decide)⟩

/-- C4 counterexample: on scenario A the run emits 3 objects with
orphan_count 0 but only 4 edges, so edge_count differs from
2 × (objects − orphan_count) = 6. -/
theorem edge_counter_claim_counterexample :
    ingest "u" scenarioA = some scenarioARun ∧
    scenarioARun.edge_count = 4 ∧
    scenarioARun.objects.length = 3 ∧
    scenarioARun.orphan_count = 0 ∧
    scenarioARun.edge_count ≠
      2 * (scenarioARun.objects.length - scenarioARun.orphan_count) := by
  exact ⟨rfl, by decide, by decide, by decide, by decide⟩

/-- C4 amended: at completion of every successful ingest run,
orphan_count is 0 (no statement increments it) and edge_count equals
2 × the number of emitted objects whose own Path is a key of the
PathIndex (the code resolves each object's own path, not a parent
path). -/
theorem edge_counter_amended (u : String) (recs : List Rec) (run : Run)
    (h : ingest u recs = some run) :
    run.orphan_count = 0 ∧
    run.edge_count =
      2 * (run.objects.filter
        (fun o => (alookup (pathIndex u recs) o.Path).isSome)).length := by
  unfold ingest at h
  cases hX : normalizeAll u recs with
  | none => rw [hX] at h; exact absurd h (by simp)
  | some pairs =>
    rw [hX] at h
    have h' : some (runOf pairs) = some run := h
    obtain rfl := Option.some.inj h'
    refine ⟨rfl, ?_⟩
    have hpi : pathIndex u recs = dirmapOf (classify pairs).1 := by
      unfold pathIndex; rw [hX]; rfl
    rw [hpi, runOf_objects]
    exact listJoinMap_edgesFor_length _ _

/-- Witness for C4 (amended) at scenario A. -/
theorem edge_counter_amended_witness :
    ingest "u" scenarioA = some scenarioARun ∧
    (scenarioARun.orphan_count = 0 ∧
     scenarioARun.edge_count =
       2 * (scenarioARun.objects.filter
         (fun o => (alookup (pathIndex "u" scenarioA) o.Path).isSome)).length) :=
  ⟨rfl, edge_counter_amended "u" scenarioA scenarioARun rfl⟩

/-- C6 counterexample: a record with a missing or malformed
ObjectIdentifier makes the *whole run* fail (`none`), even though the
remaining record normalizes fine on its own — nothing is skipped
per-record and no remaining record is processed. -/
theorem malformed_id_aborts_run_counterexample :
    ingest "u" [noIdRec, subRec] = none ∧
    ingest "u" [badIdRec, subRec] = none ∧
    (normalize_index_data "u" subRec).isSome = true :=
  ⟨rfl, rfl, rfl⟩

/-- C6 amended: a record whose normalization fails (including a missing
or malformed ObjectIdentifier) aborts the entire ingest run: the raised
error propagates out of the record loop uncaught. -/
theorem malformed_id_aborts_run (u : String) (recs : List Rec) (r : Rec)
    (hmem : r ∈ recs) (hfail : normalize_index_data u r = none) :
    ingest u recs = none := by
  unfold ingest
  rw [normalizeAll_none_of_mem hmem hfail]
  rfl

/-- Witness for C6 (amended) on a malformed-identifier record. -/
theorem malformed_id_aborts_run_witness :
    (badIdRec ∈ [badIdRec, subRec] ∧
     normalize_index_data "u" badIdRec = none) ∧
    ingest "u" [badIdRec, subRec] = none :=
  ⟨⟨by decide, rfl⟩,
   malformed_id_aborts_run "u" [badIdRec, subRec] badIdRec (by decide) rfl⟩

/-- C8 counterexample: a record carrying the FileMetadata marker but
supplying no size and no timestamp fields is not defaulted — its
normalization raises (KeyError on `client_modified`/`size`), refuting
"normalization never raises on such records". -/
theorem folder_defaults_counterexample :
    fileNoSizeRec.size = none ∧
    fileNoSizeRec.client_modified = none ∧
    normalize_index_data "u" fileNoSizeRec = none :=
  ⟨rfl, rfl, rfl⟩

/-- C8 amended: for records without the FileMetadata marker (folder
records) with a usable identifier and path, missing optional metadata
defaults rather than errors: normalization succeeds and produces Size 0
and an empty Timestamps list; file-marked records instead require
`client_modified`, `server_modified` and `size` and fail without them. -/
theorem normalize_folder_defaults (u : String) (data : Rec) (oid p : String)
    (hfold : data.FolderMetadata = true) (hfile : data.FileMetadata = false)
    (hoid : data.ObjectIdentifier = some oid)
    (hvalid : isValidUUID oid = true)
    (hpath : data.path_display = some p) :
    (normalize_index_data u data).isSome = true ∧
    (normalize_index_data u data).map IndalekoObject.Size = some 0 ∧
    (normalize_index_data u data).map IndalekoObject.Timestamps = some [] := by
  refine ⟨?_, ?_, ?_⟩ <;>
    simp [normalize_index_data, hoid, hfile, hfold, hpath,
      IndalekoObject.make, hvalid]

/-- Witness for C8 (amended) on the `/root` folder record. -/
theorem normalize_folder_defaults_witness :
    (rootRec.FolderMetadata = true ∧ rootRec.FileMetadata = false ∧
     rootRec.ObjectIdentifier = some rootId ∧ isValidUUID rootId = true ∧
     rootRec.path_display = some "/root") ∧
    ((normalize_index_data "u" rootRec).isSome = true ∧
     (normalize_index_data "u" rootRec).map IndalekoObject.Size = some 0 ∧
     (normalize_index_data "u" rootRec).map IndalekoObject.Timestamps =
       some []) :=
  ⟨⟨rfl, rfl, rfl, by decide, rfl⟩,
   normalize_folder_defaults "u" rootRec rootId "/root" rfl rfl rfl
     (by decide) rfl⟩

/-- C1 evaluation at the failing input (scenario A): b.txt's declared
parent path `/root/sub` is a key of the PathIndex, yet the run emits no
edge touching b.txt at all — the loop resolves each object's *own* path
(`parent = item.args['Path']`) instead of its parent path. -/
theorem resolvable_child_gets_no_edges :
    alookup (pathIndex "u" scenarioA) "/root/sub" = some subId ∧
    scenarioARun.objects.map IndalekoObject.ObjectIdentifier =
      [rootId, subId, bId] ∧
    scenarioARun.edges.all
      (fun e => e.object1 != bId && e.object2 != bId) = true := by
  decide

/-- C2 evaluation at the failing input (scenario B): root/sub's declared
parent path `/root` is absent from the PathIndex, yet root/sub receives
two (self-loop) edges rather than zero, and orphan_count stays 0 — the
source never increments an orphan counter; the object itself is still
written. -/
theorem unresolved_parent_self_edges :
    ingest "u" scenarioB = some scenarioBRun ∧
    alookup (pathIndex "u" scenarioB) "/root" = none ∧
    scenarioBRun.edges =
      [⟨DIRECTORY_CONTAINS_RELATIONSHIP, subId, subId⟩,
       ⟨CONTAINED_BY_DIRECTORY_RELATIONSHIP, subId, subId⟩] ∧
    scenarioBRun.orphan_count = 0 ∧
    scenarioBRun.objects.map IndalekoObject.ObjectIdentifier =
      [subId, bId] := by
  decide

/-- C3 evaluation: on the three-object tree the run emits two self-loop
edge pairs (root↔root and root/sub↔root/sub) and nothing for b.txt —
not the parent→child edges the claim lists — although edge_count = 4 and
orphan_count = 0 do coincide numerically. -/
theorem scenarioA_emits_self_loops :
    ingest "u" scenarioA = some scenarioARun ∧
    scenarioARun.edges =
      [⟨DIRECTORY_CONTAINS_RELATIONSHIP, rootId, rootId⟩,
       ⟨CONTAINED_BY_DIRECTORY_RELATIONSHIP, rootId, rootId⟩,
       ⟨DIRECTORY_CONTAINS_RELATIONSHIP, subId, subId⟩,
       ⟨CONTAINED_BY_DIRECTORY_RELATIONSHIP, subId, subId⟩] ∧
    scenarioARun.edge_count = 4 ∧
    scenarioARun.orphan_count = 0 := by
  decide

/-- C7 evaluation at the failing input: with no volume GUID mapped for
drive C, `convert_windows_path_to_guid_uri` does fall back to the bare
drive-letter URI, but `build_stat_dict` then asserts the Volume-GUID
format on that URI and raises AssertionError (aborting the entry and,
uncaught, the walk); the same call with a resolvable GUID returns
normally. -/
theorem volume_fallback_assert_fires :
    convert_windows_path_to_guid_uri (fun _ => none) ("C:\\data".toList) =
      some ("\\\\?\\C:".toList) ∧
    build_stat_dict (fun _ => none) true ("f.txt".toList)
      ("C:\\data".toList) none = StatOutcome.assertError ∧
    build_stat_dict (fun _ => some ("0000-aaaa".toList)) true
      ("f.txt".toList) ("C:\\data".toList) none =
      StatOutcome.ok ("\\\\?\\Volume\x7b0000-aaaa\x7d\\data\\f.txt".toList)
        ("\\\\?\\Volume\x7b0000-aaaa\x7d\\".toList) (some 'C') := by
  decide

/- ===================================================================
   Helper lemmas for the reserved-character substitution.
   =================================================================== -/

/-- Replacement of the empty string is the empty string, at any fuel. -/
theorem replaceAllF_nil (pat rep : List Char) (n : Nat) :
    replaceAllF pat rep n [] = [] := by
  cases n <;> rfl

/-- The fuel argument is irrelevant once it covers the string length. -/
theorem replaceAllF_fuel (pat rep : List Char) :
    ∀ (n : Nat) (s : List Char) (m : Nat), s.length ≤ n → s.length ≤ m →
      replaceAllF pat rep n s = replaceAllF pat rep m s := by
  intro n
  induction n with
  | zero =>
    intro s m hn _
    have : s = [] := List.length_eq_zero.mp (Nat.le_zero.mp hn)
    subst this
    rw [replaceAllF_nil, replaceAllF_nil]
  | succ n ih =>
    intro s m hn hm
    cases s with
    | nil => rw [replaceAllF_nil, replaceAllF_nil]
    | cons c rest =>
      cases m with
      | zero => exact absurd hm (by simp)
      | succ m' =>
        simp only [replaceAllF]
        by_cases hc : pat.isPrefixOf (c :: rest) && !pat.isEmpty
        · rw [if_pos hc, if_pos hc]
          congr 1
          apply ih
          · calc (rest.drop (pat.length - 1)).length ≤ rest.length :=
                  by rw [List.length_drop]; omega
              _ ≤ n := by simpa using Nat.succ_le_succ_iff.mp hn
          · calc (rest.drop (pat.length - 1)).length ≤ rest.length :=
                  by rw [List.length_drop]; omega
              _ ≤ m' := by simpa using Nat.succ_le_succ_iff.mp hm
        · rw [if_neg hc, if_neg hc]
          congr 1
          apply ih
          · simpa using Nat.succ_le_succ_iff.mp hn
          · simpa using Nat.succ_le_succ_iff.mp hm

/-- Unfolding equation of `replaceAll` at a matching position. -/
theorem replaceAll_cons_match {pat : List Char} (rep : List Char)
    {c : Char} {rest : List Char}
    (h1 : pat.isPrefixOf (c :: rest) = true) (h2 : pat ≠ []) :
    replaceAll pat rep (c :: rest) =
      rep ++ replaceAll pat rep (rest.drop (pat.length - 1)) := by
  have hne : pat.isEmpty = false := by
    cases pat with
    | nil => exact absurd rfl h2
    | cons a l => rfl
  unfold replaceAll
  simp only [List.length_cons, replaceAllF, h1, hne]
  simp only [Bool.not_false, Bool.and_true, if_true]
  congr 1
  apply replaceAllF_fuel
  · rw [List.length_drop]; omega
  · exact Nat.le_refl _

/-- Unfolding equation of `replaceAll` at a non-matching position. -/
theorem replaceAll_cons_nomatch {pat : List Char} (rep : List Char)
    {c : Char} {rest : List Char}
    (h1 : pat.isPrefixOf (c :: rest) = false) :
    replaceAll pat rep (c :: rest) = c :: replaceAll pat rep rest := by
  unfold replaceAll
  simp only [List.length_cons, replaceAllF, h1]
  simp

/-- Concatenated maps distribute over append. -/
theorem listJoinMap_append (f : α → List β) (l₁ l₂ : List α) :
    listJoinMap f (l₁ ++ l₂) = listJoinMap f l₁ ++ listJoinMap f l₂ := by
  induction l₁ with
  | nil => rfl
  | cons a l ih => simp [listJoinMap, ih]

/-- Concatenated maps respect pointwise-equal functions. -/
theorem listJoinMap_congr {f g : α → List β} {l : List α}
    (h : ∀ a ∈ l, f a = g a) : listJoinMap f l = listJoinMap g l := by
  induction l with
  | nil => rfl
  | cons a l ih =>
    simp only [listJoinMap]
    rw [h a (List.mem_cons_self _ _), ih (fun x hx => h x (List.mem_cons_of_mem _ hx))]

/-- Composition of concatenated maps. -/
theorem listJoinMap_listJoinMap (f : α → List β) (g : β → List γ)
    (l : List α) :
    listJoinMap g (listJoinMap f l) =
      listJoinMap (fun a => listJoinMap g (f a)) l := by
  induction l with
  | nil => rfl
  | cons a l ih => simp [listJoinMap, listJoinMap_append, ih]

/-- The singleton map is the identity. -/
theorem listJoinMap_singleton (l : List α) :
    listJoinMap (fun a => [a]) l = l := by
  induction l with
  | nil => rfl
  | cons a l ih => simp [listJoinMap, ih]

/-- A list is a Boolean prefix of itself followed by anything. -/
theorem isPrefixOf_append_self (l t : List Char) :
    l.isPrefixOf (l ++ t) = true := by
  induction l with
  | nil => simp [List.isPrefixOf]
  | cons a l ih => simp [List.isPrefixOf, ih]

/-- A non-empty pattern whose head differs from the string head is not a
Boolean prefix. -/
theorem isPrefixOf_false_of_head {l : List Char} {a c : Char}
    {l' r : List Char} (hl : l = a :: l') (hac : a ≠ c) :
    l.isPrefixOf (c :: r) = false := by
  subst hl
  simp [List.isPrefixOf, hac]

/-- A pattern differing from a string at a position below both lengths is
not a Boolean prefix of that string followed by anything. -/
theorem diffWithin_not_isPrefixOf :
    ∀ (l₁ l₂ r : List Char), diffWithin l₁ l₂ = true →
      l₁.isPrefixOf (l₂ ++ r) = false := by
  intro l₁
  induction l₁ with
  | nil => intro l₂ r h; cases l₂ <;> simp [diffWithin] at h
  | cons a as ih =>
    intro l₂ r h
    cases l₂ with
    | nil => simp [diffWithin] at h
    | cons b bs =>
      simp only [diffWithin, Bool.or_eq_true, bne_iff_ne] at h
      rcases h with h | h
      · simp [List.isPrefixOf, h]
      · simp [List.isPrefixOf, ih bs r h]

/-- A found index is below the list length. -/
theorem idxOf?_lt {c : Char} : ∀ {l : List Char} {j : Nat},
    idxOf? c l = some j → j < l.length := by
  intro l
  induction l with
  | nil => intro j h; simp [idxOf?] at h
  | cons x xs ih =>
    intro j h
    simp only [idxOf?] at h
    by_cases hx : x = c
    · rw [if_pos hx] at h
      simp only [Option.some_inj] at h
      simp only [List.length_cons]
      omega
    · rw [if_neg hx] at h
      cases hj : idxOf? c xs with
      | none => rw [hj] at h; simp at h
      | some j' =>
        rw [hj] at h
        simp only [Option.map_some'] at h
        have hlt := ih hj
        simp only [Option.some_inj] at h
        simp only [List.length_cons]
        omega

/-- A found index points at the character. -/
theorem idxOf?_getD {c : Char} : ∀ {l : List Char} {j : Nat},
    idxOf? c l = some j → l.getD j ' ' = c := by
  intro l
  induction l with
  | nil => intro j h; simp [idxOf?] at h
  | cons x xs ih =>
    intro j h
    simp only [idxOf?] at h
    by_cases hx : x = c
    · rw [if_pos hx] at h
      simp only [Option.some_inj] at h
      simp [← h, hx]
    · rw [if_neg hx] at h
      cases hj : idxOf? c xs with
      | none => rw [hj] at h; simp at h
      | some j' =>
        rw [hj] at h
        simp only [Option.map_some', Option.some_inj] at h
        subst h
        simpa using ih hj

/-- A found character is a member. -/
theorem idxOf?_mem {c : Char} : ∀ {l : List Char} {j : Nat},
    idxOf? c l = some j → c ∈ l := by
  intro l
  induction l with
  | nil => intro j h; simp [idxOf?] at h
  | cons x xs ih =>
    intro j h
    simp only [idxOf?] at h
    by_cases hx : x = c
    · exact hx ▸ List.mem_cons_self _ _
    · rw [if_neg hx] at h
      cases hj : idxOf? c xs with
      | none => rw [hj] at h; simp at h
      | some j' => exact List.mem_cons_of_mem _ (ih hj)

/-- An in-range default-read is a member. -/
theorem getD_mem_of_lt : ∀ (l : List (List Char)) (n : Nat) (d : List Char),
    n < l.length → l.getD n d ∈ l := by
  intro l
  induction l with
  | nil => intro n d h; simp at h
  | cons x xs ih =>
    intro n d h
    cases n with
    | zero => exact List.mem_cons_self _ _
    | succ n' =>
      simp only [List.getD_cons_succ]
      exact List.mem_cons_of_mem _ (ih n' d (by simpa using Nat.succ_lt_succ_iff.mp h))

/-- Membership gives a true Boolean `contains` for characters. -/
theorem contains_of_mem {c : Char} : ∀ {l : List Char}, c ∈ l →
    l.contains c = true := by
  intro l
  induction l with
  | nil => intro h; simp at h
  | cons x xs ih =>
    intro h
    have h' := List.mem_cons.mp h
    show List.elem c (x :: xs) = true
    simp only [List.elem]
    cases hcx : c == x with
    | true => rfl
    | false =>
      rcases h' with h1 | h1
      · subst h1; simp at hcx
      · exact ih h1

/-- Dropping at most the first component's length distributes over
append. -/
theorem drop_append_le : ∀ (l₁ l₂ : List Char) (n : Nat), n ≤ l₁.length →
    (l₁ ++ l₂).drop n = l₁.drop n ++ l₂ := by
  intro l₁
  induction l₁ with
  | nil =>
    intro l₂ n h
    simp at h
    simp [h]
  | cons a l ih =>
    intro l₂ n h
    cases n with
    | zero => rfl
    | succ n' =>
      simp only [List.cons_append, List.drop_succ_cons]
      exact ih l₂ n' (by simpa using Nat.succ_le_succ_iff.mp h)

/-- A replacement pass walks over a leading block in which the pattern
matches at no position. -/
theorem replaceAll_append_blocked (pat rep : List Char) :
    ∀ (a b : List Char),
      (∀ n, n < a.length → pat.isPrefixOf ((a ++ b).drop n) = false) →
      replaceAll pat rep (a ++ b) = a ++ replaceAll pat rep b := by
  intro a
  induction a with
  | nil => intro b _; rfl
  | cons c a' ih =>
    intro b hblock
    have h0 : pat.isPrefixOf (c :: (a' ++ b)) = false := by
      have := hblock 0 (by simp)
      simpa using this
    rw [List.cons_append, replaceAll_cons_nomatch _ h0]
    rw [ih b (fun n hn => by
      have := hblock (n + 1) (by simp only [List.length_cons]; omega)
      simpa using this)]
    simp

/-- One `str.replace` pass with a single-character pattern is exactly a
character-wise substitution. -/
theorem replaceAll_single (a : Char) (r : List Char) :
    ∀ s, replaceAll [a] r s = listJoinMap (subst1 a r) s := by
  intro s
  induction s with
  | nil => rfl
  | cons c rest ih =>
    simp only [listJoinMap]
    by_cases hac : a = c
    · have hpref : [a].isPrefixOf (c :: rest) = true := by
        simp [List.isPrefixOf, hac]
      rw [replaceAll_cons_match r hpref (by simp)]
      have hd : rest.drop ([a].length - 1) = rest := by simp
      rw [hd, ih]
      have hs : subst1 a r c = r := by rw [subst1, if_pos hac.symm]
      rw [hs]
    · have hpref : [a].isPrefixOf (c :: rest) = false := by
        simp [List.isPrefixOf, hac]
      rw [replaceAll_cons_nomatch r hpref, ih]
      have hs : subst1 a r c = [c] := by
        rw [subst1, if_neg (fun h => hac h.symm)]
      rw [hs]
      rfl

/-- Every token is its leading underscore, its interior, and its trailing
underscore. -/
theorem tok_shape : ∀ k : Fin 9,
    resToks.getD k.val [] = '_' :: (tokInteriors.getD k.val [] ++ ['_']) := by
  decide

/-- Token lengths are at most 5. -/
theorem tok_len_le : ∀ k : Fin 9, (resToks.getD k.val []).length ≤ 5 := by
  decide

/-- No reserved character is an underscore. -/
theorem resChar_ne_underscore : ∀ j : Fin 9,
    resChars.getD j.val ' ' ≠ '_' := by
  decide

/-- The k-th reserved character indexes to k. -/
theorem resIdx_resChar : ∀ k : Fin 9,
    resIdx (resChars.getD k.val ' ') = some k.val := by
  decide

/-- No character of any token is reserved. -/
theorem tok_chars_not_reserved : ∀ j : Fin 9,
    ∀ x ∈ resToks.getD j.val [], resIdx x = none := by
  decide

/-- Interior characters are neither reserved nor underscores. -/
theorem interior_chars : ∀ k : Fin 9,
    ∀ x ∈ tokInteriors.getD k.val [], resIdx x = none ∧ x ≠ '_' := by
  decide

/-- Distinct tokens differ below both lengths, as do any token and any
interior suffix of a token (which starts with a letter, not an
underscore). -/
theorem tok_diff : ∀ k j : Fin 9, j ≠ k → ∀ n : Fin 5,
    n.val < (resToks.getD j.val []).length - 1 →
    diffWithin (resToks.getD k.val []) ((resToks.getD j.val []).drop n.val) =
      true := by
  decide

/-- Dropping all but the last character of a token leaves its trailing
underscore. -/
theorem tok_drop_last : ∀ j : Fin 9,
    (resToks.getD j.val []).drop ((resToks.getD j.val []).length - 1) =
      ['_'] := by
  decide

/-- Before any pass, the encoding state is the identity. -/
theorem pEnc_zero (c : Char) : pEnc 0 c = [c] := by
  cases h : resIdx c with
  | none => simp [pEnc, h]
  | some j => simp [pEnc, h]

/-- After all passes, the decoding state is the identity. -/
theorem dEnc_nine (c : Char) : dEnc 9 c = [c] := by
  cases h : resIdx c with
  | none => simp [dEnc, h]
  | some j =>
    have hj : j < 9 := by
      have := idxOf?_lt (c := c) h
      simpa [resChars] using this
    simp [dEnc, h, hj]

/-- The fully encoded state equals the not-yet-decoded state. -/
theorem pEnc_nine_eq_dEnc_zero (c : Char) : pEnc 9 c = dEnc 0 c := by
  cases h : resIdx c with
  | none => simp [pEnc, dEnc, h]
  | some j =>
    have hj : j < 9 := by
      have := idxOf?_lt (c := c) h
      simpa [resChars] using this
    simp [pEnc, dEnc, h, hj]

/-- What the k-th encoding pass does to one character's current block. -/
theorem pEnc_step_pointwise (k : Fin 9) (c : Char) :
    listJoinMap (subst1 (resChars.getD k.val ' ') (resToks.getD k.val []))
      (pEnc k.val c) = pEnc (k.val + 1) c := by
  cases h : resIdx c with
  | none =>
    have hc : c ≠ resChars.getD k.val ' ' := by
      intro he
      rw [he, resIdx_resChar k] at h
      exact absurd h (by simp)
    simp only [pEnc, h]
    simp only [listJoinMap, List.append_nil]
    rw [subst1, if_neg hc]
  | some j =>
    have hjlt : j < 9 := by
      have h9 := idxOf?_lt (c := c) h
      simpa [resChars] using h9
    have hgd : resChars.getD j ' ' = c := idxOf?_getD h
    by_cases hjk : j = k.val
    · have hc : c = resChars.getD k.val ' ' := by rw [← hgd, hjk]
      simp only [pEnc, h]
      rw [if_neg (by omega : ¬ j < k.val), if_pos (by omega : j < k.val + 1)]
      simp [listJoinMap, subst1, hc, hjk]
    · have hc : c ≠ resChars.getD k.val ' ' := by
        intro he
        rw [he, resIdx_resChar k] at h
        exact hjk (Option.some_inj.mp h).symm
      by_cases hjk2 : j < k.val
      · simp only [pEnc, h]
        rw [if_pos hjk2, if_pos (by omega : j < k.val + 1)]
        have hfix : ∀ x ∈ resToks.getD j [],
            subst1 (resChars.getD k.val ' ') (resToks.getD k.val []) x =
              [x] := by
          intro x hx
          have hxn := tok_chars_not_reserved ⟨j, hjlt⟩ x hx
          have hxne : x ≠ resChars.getD k.val ' ' := by
            intro he
            rw [he, resIdx_resChar k] at hxn
            exact absurd hxn (by simp)
          rw [subst1, if_neg hxne]
        rw [listJoinMap_congr hfix, listJoinMap_singleton]
      · simp only [pEnc, h]
        rw [if_neg hjk2, if_neg (by omega : ¬ j < k.val + 1)]
        simp only [listJoinMap, List.append_nil]
        rw [subst1, if_neg hc]

/-- The k-th pass of `windows_to_posix` advances the encoding state. -/
theorem encode_step (k : Fin 9) (s : List Char) :
    replaceAll [resChars.getD k.val ' '] (resToks.getD k.val [])
      (listJoinMap (pEnc k.val) s) = listJoinMap (pEnc (k.val + 1)) s := by
  rw [replaceAll_single, listJoinMap_listJoinMap]
  exact listJoinMap_congr (fun c _ => pEnc_step_pointwise k c)

/-- Inversion: if an interior-then-underscore word is a prefix of the
partially decoded image of `p'` (which contains no underscore of its
own), then `p'` literally begins with that interior followed by a
reserved character (whose token supplies the underscore). -/
theorem spell_inv (kv : Nat) :
    ∀ (w : List Char), (∀ x ∈ w, resIdx x = none ∧ x ≠ '_') →
      ∀ (p' : List Char), (∀ x ∈ p', x ≠ '_') →
        (w ++ ['_']).isPrefixOf (listJoinMap (dEnc kv) p') = true →
        ∃ r2 p'', p' = w ++ r2 :: p'' ∧ r2 ∈ resChars := by
  intro w
  induction w with
  | nil =>
    intro _ p' hund h
    cases p' with
    | nil => simp [listJoinMap, List.isPrefixOf] at h
    | cons d p'' =>
      have hjoin : listJoinMap (dEnc kv) (d :: p'') =
          dEnc kv d ++ listJoinMap (dEnc kv) p'' := rfl
      cases hd : resIdx d with
      | none =>
        exfalso
        have hded : dEnc kv d = [d] := by simp [dEnc, hd]
        rw [hjoin, hded] at h
        simp only [List.nil_append, List.singleton_append,
          List.isPrefixOf, Bool.and_eq_true, beq_iff_eq] at h
        have hdu : ('_' : Char) = d := h.1
        exact hund d (List.mem_cons_self _ _) hdu.symm
      | some j =>
        have hjlt : j < 9 := by
          have := idxOf?_lt (c := d) hd
          simpa [resChars] using this
        by_cases hjkv : j < kv
        · exfalso
          have hded : dEnc kv d = [d] := by simp [dEnc, hd, hjkv]
          rw [hjoin, hded] at h
          simp only [List.nil_append, List.singleton_append,
            List.isPrefixOf, Bool.and_eq_true, beq_iff_eq] at h
          have hdu : ('_' : Char) = d := h.1
          have hg := idxOf?_getD (l := resChars) hd
          exact resChar_ne_underscore ⟨j, hjlt⟩ (by rw [hg, ← hdu])
        · exact ⟨d, p'', by simp, idxOf?_mem hd⟩
  | cons x w' ih =>
    intro hw p' hund h
    have hx := hw x (List.mem_cons_self _ _)
    cases p' with
    | nil =>
      exfalso
      simp [listJoinMap, List.isPrefixOf] at h
    | cons d p'' =>
      have hjoin : listJoinMap (dEnc kv) (d :: p'') =
          dEnc kv d ++ listJoinMap (dEnc kv) p'' := rfl
      cases hd : resIdx d with
      | none =>
        have hded : dEnc kv d = [d] := by simp [dEnc, hd]
        rw [hjoin, hded] at h
        simp only [List.cons_append, List.singleton_append,
          List.isPrefixOf, Bool.and_eq_true, beq_iff_eq] at h
        obtain ⟨hxd', hrest⟩ := h
        obtain ⟨r2, p''', hp, hr2⟩ := ih
          (fun y hy => hw y (List.mem_cons_of_mem _ hy)) p''
          (fun y hy => hund y (List.mem_cons_of_mem _ hy)) hrest
        exact ⟨r2, p''', by rw [hp, hxd']; simp, hr2⟩
      | some j =>
        exfalso
        have hjlt : j < 9 := by
          have := idxOf?_lt (c := d) hd
          simpa [resChars] using this
        by_cases hjkv : j < kv
        · have hded : dEnc kv d = [d] := by simp [dEnc, hd, hjkv]
          rw [hjoin, hded] at h
          simp only [List.cons_append, List.singleton_append,
            List.isPrefixOf, Bool.and_eq_true, beq_iff_eq] at h
          have hxd : x = d := h.1
          rw [hxd] at hx
          exact Option.noConfusion (hx.1.symm.trans hd)
        · have hded : dEnc kv d = resToks.getD j [] := by
            simp [dEnc, hd, hjkv]
          have hts : resToks.getD j [] =
              '_' :: (tokInteriors.getD j [] ++ ['_']) := tok_shape ⟨j, hjlt⟩
          rw [hjoin, hded, hts] at h
          simp only [List.cons_append, List.isPrefixOf,
            Bool.and_eq_true, beq_iff_eq] at h
          have hxu : x = '_' := h.1
          exact hx.2 hxu

/-- The k-th pass of `posix_to_windows` advances the decoding state on
the image of an underscore-free, non-spanning string. -/
theorem decode_step (k : Fin 9) :
    ∀ (p : List Char), (∀ c ∈ p, c ≠ '_') → spansTok p = false →
      replaceAll (resToks.getD k.val []) [resChars.getD k.val ' ']
        (listJoinMap (dEnc k.val) p) = listJoinMap (dEnc (k.val + 1)) p := by
  intro p
  induction p with
  | nil => intro _ _; rfl
  | cons c p' ih =>
    intro hund hsafe
    have hund' : ∀ x ∈ p', x ≠ '_' :=
      fun x hx => hund x (List.mem_cons_of_mem _ hx)
    have hsafe' : spansTok p' = false := by
      cases hsp : spansTok p' with
      | false => rfl
      | true =>
        exfalso
        have hx : spansTok (c :: p') = true := by
          simp only [spansTok, hsp]
          simp
        exact absurd (hsafe.symm.trans hx) (by decide)
    have hcu : c ≠ '_' := hund c (List.mem_cons_self _ _)
    have hjoin : listJoinMap (dEnc k.val) (c :: p') =
        dEnc k.val c ++ listJoinMap (dEnc k.val) p' := rfl
    have hjoin' : listJoinMap (dEnc (k.val + 1)) (c :: p') =
        dEnc (k.val + 1) c ++ listJoinMap (dEnc (k.val + 1)) p' := rfl
    rw [hjoin, hjoin']
    cases h : resIdx c with
    | none =>
      have hde : dEnc k.val c = [c] := by simp [dEnc, h]
      have hde' : dEnc (k.val + 1) c = [c] := by simp [dEnc, h]
      rw [hde, hde']
      simp only [List.singleton_append]
      have hpre : (resToks.getD k.val []).isPrefixOf
          (c :: listJoinMap (dEnc k.val) p') = false :=
        isPrefixOf_false_of_head (tok_shape k) (fun he => hcu he.symm)
      rw [replaceAll_cons_nomatch _ hpre, ih hund' hsafe']
    | some j =>
      have hjlt : j < 9 := by
        have := idxOf?_lt (c := c) h
        simpa [resChars] using this
      have hgd : resChars.getD j ' ' = c := idxOf?_getD h
      by_cases hjk : j = k.val
      · subst hjk
        have hde : dEnc k.val c = resToks.getD k.val [] := by
          simp [dEnc, h]
        have hde' : dEnc (k.val + 1) c = [c] := by
          simp [dEnc, h]
        rw [hde, hde']
        have heq : resToks.getD k.val [] ++ listJoinMap (dEnc k.val) p' =
            '_' :: ((tokInteriors.getD k.val [] ++ ['_']) ++
              listJoinMap (dEnc k.val) p') := by
          rw [tok_shape k]
          rfl
        rw [heq]
        have hpre2 : (resToks.getD k.val []).isPrefixOf
            ('_' :: ((tokInteriors.getD k.val [] ++ ['_']) ++
              listJoinMap (dEnc k.val) p')) = true := by
          rw [← heq]
          exact isPrefixOf_append_self _ _
        have htokne : resToks.getD k.val [] ≠ [] := by
          rw [tok_shape k]
          simp
        rw [replaceAll_cons_match _ hpre2 htokne]
        have hdrop : ((tokInteriors.getD k.val [] ++ ['_']) ++
            listJoinMap (dEnc k.val) p').drop
              ((resToks.getD k.val []).length - 1) =
            listJoinMap (dEnc k.val) p' := by
          apply List.drop_left'
          rw [tok_shape k]
          simp
        rw [hdrop, ih hund' hsafe', hgd]
      · by_cases hjk2 : j < k.val
        · have hde : dEnc k.val c = [c] := by simp [dEnc, h, hjk2]
          have hde' : dEnc (k.val + 1) c = [c] := by
            have hlt : j < k.val + 1 := by omega
            simp [dEnc, h, hlt]
          rw [hde, hde']
          simp only [List.singleton_append]
          have hcne : ('_' : Char) ≠ c := by
            intro he
            exact resChar_ne_underscore ⟨j, hjlt⟩ (by rw [hgd, ← he])
          have hpre : (resToks.getD k.val []).isPrefixOf
              (c :: listJoinMap (dEnc k.val) p') = false :=
            isPrefixOf_false_of_head (tok_shape k) hcne
          rw [replaceAll_cons_nomatch _ hpre, ih hund' hsafe']
        · have hde : dEnc k.val c = resToks.getD j [] := by
            simp [dEnc, h, hjk2]
          have hde' : dEnc (k.val + 1) c = resToks.getD j [] := by
            have hnlt : ¬ j < k.val + 1 := by omega
            simp [dEnc, h, hnlt]
          rw [hde, hde']
          have hblock : ∀ n, n < (resToks.getD j []).length →
              (resToks.getD k.val []).isPrefixOf
                ((resToks.getD j [] ++
                  listJoinMap (dEnc k.val) p').drop n) = false := by
            intro n hn
            have hlen5 : (resToks.getD j []).length ≤ 5 :=
              tok_len_le ⟨j, hjlt⟩
            by_cases hn2 : n < (resToks.getD j []).length - 1
            · rw [drop_append_le _ _ n (by omega)]
              have hfne : (⟨j, hjlt⟩ : Fin 9) ≠ k := by
                intro he
                exact hjk (by simpa using congrArg Fin.val he)
              have hdiff : diffWithin (resToks.getD k.val [])
                  ((resToks.getD j []).drop n) = true :=
                tok_diff k ⟨j, hjlt⟩ hfne ⟨n, by omega⟩ hn2
              exact diffWithin_not_isPrefixOf _ _ _ hdiff
            · have hneq : n = (resToks.getD j []).length - 1 := by omega
              subst hneq
              rw [drop_append_le _ _ _ (by omega)]
              have hdl : (resToks.getD j []).drop
                  ((resToks.getD j []).length - 1) = ['_'] :=
                tok_drop_last ⟨j, hjlt⟩
              rw [hdl]
              simp only [List.singleton_append]
              by_contra hcon
              have hcon' : (resToks.getD k.val []).isPrefixOf
                  ('_' :: listJoinMap (dEnc k.val) p') = true := by
                cases hb : (resToks.getD k.val []).isPrefixOf
                    ('_' :: listJoinMap (dEnc k.val) p') with
                | true => rfl
                | false => exact absurd hb hcon
              rw [tok_shape k] at hcon'
              simp only [List.isPrefixOf, Bool.and_eq_true,
                beq_iff_eq] at hcon'
              have hrest := hcon'.2
              obtain ⟨r2, p'', hp', hr2⟩ := spell_inv k.val
                (tokInteriors.getD k.val [])
                (fun x hx => interior_chars k x hx) p' hund' hrest
              have hspan : spansTok (c :: p') = true := by
                have hc1 : resChars.contains c = true :=
                  contains_of_mem (idxOf?_mem h)
                have hl9 : tokInteriors.length = 9 := by decide
                have hw : tokInteriors.getD k.val [] ∈ tokInteriors :=
                  getD_mem_of_lt _ _ _ (by rw [hl9]; exact k.isLt)
                simp only [spansTok, Bool.or_eq_true]
                left
                rw [hc1, Bool.true_and, List.any_eq_true]
                refine ⟨tokInteriors.getD k.val [], hw, ?_⟩
                rw [hp', isPrefixOf_append_self, Bool.true_and]
                rw [List.drop_left]
                exact contains_of_mem hr2
              exact absurd (hsafe.symm.trans hspan) (by decide)
          rw [replaceAll_append_blocked _ _ _ _ hblock, ih hund' hsafe']

/-- The nine passes of `windows_to_posix` encode every character. -/
theorem w2p_eq (s : List Char) :
    windows_to_posix s = listJoinMap (pEnc 9) s := by
  have h0 : listJoinMap (pEnc 0) s = s := by
    rw [listJoinMap_congr (fun c _ => pEnc_zero c), listJoinMap_singleton]
  have s0 : replaceAll ['<'] ("_lt_".toList) (listJoinMap (pEnc 0) s) =
      listJoinMap (pEnc 1) s := encode_step ⟨0, by omega⟩ s
  have s1 : replaceAll ['>'] ("_gt_".toList) (listJoinMap (pEnc 1) s) =
      listJoinMap (pEnc 2) s := encode_step ⟨1, by omega⟩ s
  have s2 : replaceAll [':'] ("_cln_".toList) (listJoinMap (pEnc 2) s) =
      listJoinMap (pEnc 3) s := encode_step ⟨2, by omega⟩ s
  have s3 : replaceAll ['"'] ("_qt_".toList) (listJoinMap (pEnc 3) s) =
      listJoinMap (pEnc 4) s := encode_step ⟨3, by omega⟩ s
  have s4 : replaceAll ['/'] ("_sl_".toList) (listJoinMap (pEnc 4) s) =
      listJoinMap (pEnc 5) s := encode_step ⟨4, by omega⟩ s
  have s5 : replaceAll ['\\'] ("_bsl_".toList) (listJoinMap (pEnc 5) s) =
      listJoinMap (pEnc 6) s := encode_step ⟨5, by omega⟩ s
  have s6 : replaceAll ['|'] ("_bar_".toList) (listJoinMap (pEnc 6) s) =
      listJoinMap (pEnc 7) s := encode_step ⟨6, by omega⟩ s
  have s7 : replaceAll ['?'] ("_qm_".toList) (listJoinMap (pEnc 7) s) =
      listJoinMap (pEnc 8) s := encode_step ⟨7, by omega⟩ s
  have s8 : replaceAll ['*'] ("_ast_".toList) (listJoinMap (pEnc 8) s) =
      listJoinMap (pEnc 9) s := encode_step ⟨8, by omega⟩ s
  unfold windows_to_posix
  simp only [resChars, resToks, List.zip_cons_cons, List.zip_nil_right,
    List.foldl_cons, List.foldl_nil]
  conv_lhs => rw [← h0]
  rw [s0, s1, s2, s3, s4, s5, s6, s7, s8]

/-- C5 (amended): the reserved-character substitution round-trips —
`posix_to_windows (windows_to_posix p) = p` — for every string that
contains no underscore and no reserved-letters-reserved span (a reserved
character, then one of the interior words lt, gt, cln, qt, sl, bsl, bar,
qm, ast, then another reserved character); outside these conditions the
literal tokens can collide with surrounding text and break the
round-trip. -/
theorem reserved_roundtrip (p : List Char) (h1 : ∀ c ∈ p, c ≠ '_')
    (h2 : spansTok p = false) :
    posix_to_windows (windows_to_posix p) = p := by
  have hd0 : replaceAll ("_lt_".toList) ['<'] (listJoinMap (dEnc 0) p) =
      listJoinMap (dEnc 1) p := decode_step ⟨0, by omega⟩ p h1 h2
  have hd1 : replaceAll ("_gt_".toList) ['>'] (listJoinMap (dEnc 1) p) =
      listJoinMap (dEnc 2) p := decode_step ⟨1, by omega⟩ p h1 h2
  have hd2 : replaceAll ("_cln_".toList) [':'] (listJoinMap (dEnc 2) p) =
      listJoinMap (dEnc 3) p := decode_step ⟨2, by omega⟩ p h1 h2
  have hd3 : replaceAll ("_qt_".toList) ['"'] (listJoinMap (dEnc 3) p) =
      listJoinMap (dEnc 4) p := decode_step ⟨3, by omega⟩ p h1 h2
  have hd4 : replaceAll ("_sl_".toList) ['/'] (listJoinMap (dEnc 4) p) =
      listJoinMap (dEnc 5) p := decode_step ⟨4, by omega⟩ p h1 h2
  have hd5 : replaceAll ("_bsl_".toList) ['\\'] (listJoinMap (dEnc 5) p) =
      listJoinMap (dEnc 6) p := decode_step ⟨5, by omega⟩ p h1 h2
  have hd6 : replaceAll ("_bar_".toList) ['|'] (listJoinMap (dEnc 6) p) =
      listJoinMap (dEnc 7) p := decode_step ⟨6, by omega⟩ p h1 h2
  have hd7 : replaceAll ("_qm_".toList) ['?'] (listJoinMap (dEnc 7) p) =
      listJoinMap (dEnc 8) p := decode_step ⟨7, by omega⟩ p h1 h2
  have hd8 : replaceAll ("_ast_".toList) ['*'] (listJoinMap (dEnc 8) p) =
      listJoinMap (dEnc 9) p := decode_step ⟨8, by omega⟩ p h1 h2
  have hfin : listJoinMap (dEnc 9) p = p := by
    rw [listJoinMap_congr (fun c _ => dEnc_nine c), listJoinMap_singleton]
  have henc : windows_to_posix p = listJoinMap (dEnc 0) p := by
    rw [w2p_eq]
    exact listJoinMap_congr (fun c _ => pEnc_nine_eq_dEnc_zero c)
  rw [henc]
  unfold posix_to_windows
  simp only [resChars, resToks, List.zip_cons_cons, List.zip_nil_right,
    List.foldl_cons, List.foldl_nil]
  rw [hd0, hd1, hd2, hd3, hd4, hd5, hd6, hd7, hd8, hfin]

/-- Witness for C5 (amended) on a\<b\\c? — a string exercising three
substitutions. -/
theorem reserved_roundtrip_witness :
    ((∀ c ∈ ("a<b\\c?".toList), c ≠ '_') ∧
     spansTok ("a<b\\c?".toList) = false) ∧
    posix_to_windows (windows_to_posix ("a<b\\c?".toList)) =
      "a<b\\c?".toList :=
  ⟨⟨by decide, by decide⟩,
   reserved_roundtrip ("a<b\\c?".toList) (by decide) (by decide)⟩

/-- C5 counterexample: the input `_lt<` contains none of the nine
substitution tokens verbatim, yet the round-trip returns `<lt_`: the
encoder turns it into `_lt_lt_`, whose leftmost `_lt_` occurrence
straddles the original text and the substituted token. -/
theorem roundtrip_claim_counterexample :
    resToks.all (fun t => !hasSubstr t ("_lt<".toList)) = true ∧
    windows_to_posix ("_lt<".toList) = "_lt_lt_".toList ∧
    posix_to_windows (windows_to_posix ("_lt<".toList)) = "<lt_".toList ∧
    posix_to_windows (windows_to_posix ("_lt<".toList)) ≠
      "_lt<".toList := by
  refine ⟨by decide, by decide, by decide, by decide⟩

/-- C10: `windows_to_posix` is idempotent — its output contains none of
the nine reserved characters, so a second pass changes nothing. -/
theorem windows_to_posix_idempotent (p : List Char) :
    windows_to_posix (windows_to_posix p) = windows_to_posix p := by
  rw [w2p_eq p, w2p_eq (listJoinMap (pEnc 9) p), listJoinMap_listJoinMap]
  apply listJoinMap_congr
  intro c _
  cases h : resIdx c with
  | none =>
    have hc : pEnc 9 c = [c] := by simp [pEnc, h]
    rw [hc]
    simp only [listJoinMap, hc, List.append_nil]
  | some j =>
    have hjlt : j < 9 := by
      have := idxOf?_lt (c := c) h
      simpa [resChars] using this
    have hc : pEnc 9 c = resToks.getD j [] := by simp [pEnc, h, hjlt]
    rw [hc]
    have hfix : ∀ x ∈ resToks.getD j [], pEnc 9 x = [x] := by
      intro x hx
      have hxn := tok_chars_not_reserved ⟨j, hjlt⟩ x hx
      simp [pEnc, hxn]
    rw [listJoinMap_congr hfix, listJoinMap_singleton]
